import Mathlib

/-!
Verification of the document-structure inference pipeline of the `pdf_text`
repository (`pdf_processor.py`).  Text is modelled as `List Char`; the regular
expressions of the source are embedded as explicit positional scanners with the
backtracking behaviour of Python's `re` module specialised to the concrete
patterns appearing in the code.
-/

set_option maxRecDepth 100000

set_option maxHeartbeats 2000000

namespace PdfText

abbrev Chars := List Char

def str (s : String) : Chars := s.data

/-- Python `\s` on ASCII text. -/
def isWs (c : Char) : Bool :=
  c = ' ' || c = '\t' || c = '\n' || c = '\r' || c = '\x0b' || c = '\x0c'

def isDigitC (c : Char) : Bool := '0' ≤ c && c ≤ '9'

def isAlphaC (c : Char) : Bool := ('a' ≤ c && c ≤ 'z') || ('A' ≤ c && c ≤ 'Z')

/-- Python `\w` on ASCII text. -/
def isWordC (c : Char) : Bool := isAlphaC c || isDigitC c || c = '_'

def toLowerC (c : Char) : Char :=
  if 'A' ≤ c && c ≤ 'Z' then Char.ofNat (c.toNat + 32) else c

def lower (l : Chars) : Chars := l.map toLowerC

/-- Maximal run of characters satisfying `p` starting at offset `i`. -/
def runLenFrom (p : Char → Bool) (t : Chars) (i : Nat) : Nat :=
  ((t.drop i).takeWhile p).length

def wsLenFrom (t : Chars) (i : Nat) : Nat := runLenFrom isWs t i

/-- Case-sensitive literal occurring at offset `i`. -/
def prefAt (w t : Chars) (i : Nat) : Bool := w.isPrefixOf (t.drop i)

/-- Case-insensitive literal (given in lowercase) occurring at offset `i`. -/
def ciPrefAt (w t : Chars) (i : Nat) : Bool := lower ((t.drop i).take w.length) == w

/-- Leftmost position `k` with `i ≤ k < i + fuel` satisfying `p` (the scanning
of `re.search`). -/
def scanFrom (p : Nat → Bool) : Nat → Nat → Option Nat
  | _, 0 => none
  | i, f+1 => if p i then some i else scanFrom p (i+1) f

def isWordO : Option Char → Bool
  | some c => isWordC c
  | none => false

/-- Python `\b` at position `i` (between characters `i-1` and `i`). -/
def boundaryB (t : Chars) (i : Nat) : Bool :=
  (if i = 0 then false else isWordO (t.get? (i-1))) != isWordO (t.get? i)

/-- Whole-word occurrence (`\b w \b`) at position `i` of `t`. -/
def wordAtB (w t : Chars) (i : Nat) : Bool :=
  prefAt w t i && !(if i = 0 then false else isWordO (t.get? (i-1)))
    && !isWordO (t.get? (i + w.length))

/-- Non-overlapping deleting substitution: `m t i` returns the length of the
match at position `i` of `t`, if any; matched spans are dropped (`re.sub`
with an empty replacement). -/
def subDel (m : Chars → Nat → Option Nat) (t : Chars) : Nat → Nat → Chars
  | 0, i => t.drop i
  | f+1, i =>
    match t.get? i with
    | none => []
    | some c =>
      match m t i with
      | some L => subDel m t f (i + L)
      | none => c :: subDel m t f (i + 1)

/-- The character class after `http[s]?://` and `www.` in `remove_urls`:
`[a-zA-Z]`, `[0-9]`, `[$-_@.&+]` (the range `$`..`_`), `[!*\(\),]`; the
`%XX` alternative is subsumed because `%` lies in the range `$`..`_`. -/
def urlChar (c : Char) : Bool :=
  isAlphaC c || (0x24 ≤ c.toNat && c.toNat ≤ 0x5f)
    || c = '!' || c = '*' || c = '\\' || c = '(' || c = ')' || c = ','

def httpAt (t : Chars) (i : Nat) : Option Nat :=
  if prefAt (str "https://") t i then
    (let k := runLenFrom urlChar t (i+8); if k = 0 then none else some (8 + k))
  else if prefAt (str "http://") t i then
    (let k := runLenFrom urlChar t (i+7); if k = 0 then none else some (7 + k))
  else none

def wwwAt (t : Chars) (i : Nat) : Option Nat :=
  if prefAt (str "www.") t i then
    (let k := runLenFrom urlChar t (i+4); if k = 0 then none else some (4 + k))
  else none

def doiAt (t : Chars) (i : Nat) : Option Nat :=
  if prefAt (str "doi:") t i then
    let w := wsLenFrom t (i+4)
    let k := runLenFrom (fun c => !isWs c) t (i+4+w)
    if k = 0 then none else some (4 + w + k)
  else none

def localC (c : Char) : Bool :=
  isAlphaC c || isDigitC c || c = '.' || c = '_' || c = '%' || c = '+' || c = '-'

def domC (c : Char) : Bool := isAlphaC c || isDigitC c || c = '.' || c = '-'

def tldC (c : Char) : Bool := isAlphaC c || c = '|'

/-- Greedy `[A-Z|a-z]{2,}\b`: longest tld length `≤` the given bound whose end
satisfies `\b`. -/
def tryTld (t : Chars) (ts : Nat) : Nat → Option Nat
  | 0 => none
  | 1 => none
  | n+2 => if boundaryB t (ts + n + 2) then some (n + 2) else tryTld t ts (n+1)

/-- Greedy `[A-Za-z0-9.-]+\.` with backtracking against the tld part. -/
def tryDom (t : Chars) (ds : Nat) : Nat → Option Nat
  | 0 => none
  | d+1 =>
    if t.get? (ds + d + 1) == some '.' then
      let ts := ds + d + 2
      match tryTld t ts (runLenFrom tldC t ts) with
      | some tt => some (ts + tt)
      | none => tryDom t ds d
    else tryDom t ds d

def emailAt (t : Chars) (i : Nat) : Option Nat :=
  match t.get? i with
  | none => none
  | some c =>
    if localC c && boundaryB t i then
      let L := runLenFrom localC t i
      if t.get? (i + L) == some '@' then
        match tryDom t (i + L + 1) (runLenFrom domC t (i + L + 1)) with
        | some e => some (e - i)
        | none => none
      else none
    else none

def wsToSpace (l : Chars) : Chars := l.map (fun c => if isWs c then ' ' else c)

/-- Collapse runs of spaces to a single space (`re.sub(r'\s+', ' ', ·)` after
`wsToSpace`). -/
def squeezeWs : Chars → Chars
  | [] => []
  | c :: cs =>
    match squeezeWs cs with
    | [] => [c]
    | d :: ds => if c == ' ' && d == ' ' then d :: ds else c :: d :: ds

def dropTrailWs : Chars → Chars
  | [] => []
  | c :: cs =>
    match dropTrailWs cs with
    | [] => if isWs c then [] else [c]
    | d :: ds => c :: d :: ds

/-- Python `str.strip()`. -/
def stripWs (l : Chars) : Chars := dropTrailWs (l.dropWhile isWs)

/-- `PDFProcessor.remove_urls`. -/
def remove_urls (t : Chars) : Chars :=
  let t1 := subDel httpAt t (t.length + 1) 0
  let t2 := subDel wwwAt t1 (t1.length + 1) 0
  let t3 := subDel doiAt t2 (t2.length + 1) 0
  let t4 := subDel emailAt t3 (t3.length + 1) 0
  stripWs (squeezeWs (wsToSpace t4))

/-- `\b1\s*\.?\s*introduction\b` matching at position `i` of `t` (`t` already
lowercased where case-insensitivity applies). -/
def numIntroAtB (t : Chars) (i : Nat) : Bool :=
  t.get? i == some '1' && !(if i = 0 then false else isWordO (t.get? (i-1))) &&
  (let q := i + 1 + wsLenFrom t (i+1)
   let q' := if t.get? q == some '.' then q + 1 + wsLenFrom t (q+1) else q
   prefAt (str "introduction") t q' && !isWordO (t.get? (q' + 12)))

/-- End phase of `find_abstract_section`: the priority-ordered search for
`\bintroduction\b`, `\b1\s*\.?\s*introduction\b`, `\bkeywords\b` in
`text_lower[abstract_start:]`. -/
def abstractEnd (tl : Chars) (s : Nat) : Nat :=
  let suf := tl.drop s
  match scanFrom (wordAtB (str "introduction") suf) 0 suf.length with
  | some j => s + j
  | none =>
    match scanFrom (numIntroAtB suf) 0 suf.length with
    | some j => s + j
    | none =>
      match scanFrom (wordAtB (str "keywords") suf) 0 suf.length with
      | some j => s + j
      | none => tl.length

/-- `PDFProcessor.find_abstract_section`. -/
def find_abstract_section (t : Chars) : Int × Int :=
  let tl := lower t
  match scanFrom (wordAtB (str "abstract") tl) 0 tl.length with
  | some s => (Int.ofNat s, Int.ofNat (abstractEnd tl s))
  | none =>
    match scanFrom (wordAtB (str "summary") tl) 0 tl.length with
    | some s => (Int.ofNat s, Int.ofNat (abstractEnd tl s))
    | none => (-1, -1)

/-- Python `str.split(sep)` (single-character separator, empty parts kept). -/
def pySplit (sep : Char) : Chars → List Chars
  | [] => [[]]
  | c :: cs =>
    match pySplit sep cs with
    | [] => [[c]]
    | h :: r => if c = sep then [] :: h :: r else (c :: h) :: r

/-- Substring containment (Python `in`). -/
def containsSubB (w t : Chars) : Bool :=
  (List.range (t.length + 1)).any (fun i => prefAt w t i)

def fourDigitsAtB (t : Chars) (i : Nat) : Bool :=
  ((t.drop i).take 4).length == 4 && ((t.drop i).take 4).all isDigitC

/-- `re.search(r'\d{4}|\bpage\b|\bvol\b', line.lower())` as a truth value. -/
def hasDateOrPage (tl : Chars) : Bool :=
  (List.range tl.length).any
    (fun i => fourDigitsAtB tl i || wordAtB (str "page") tl i || wordAtB (str "vol") tl i)

def metaList1 : List Chars :=
  [str "http", str "www.", str "@", str "arxiv", str "volume", str "journal",
   str "issn", str "doi:", str "page"]

def metaList2 : List Chars :=
  [str "abstract", str "author", str "university", str "department",
   str "published", str "received"]

/-- The filters a stripped line must pass in `_extract_title_rule_based`. -/
def surviveB (s : Chars) : Bool :=
  let ls := lower s
  !(s.length < 10 || s.length > 300)
  && !(metaList1.any (fun w => containsSubB w ls))
  && !(hasDateOrPage ls)
  && !(metaList2.any (fun w => containsSubB w ls))

/-- One step of the fallback loop of `_extract_title_rule_based`. -/
def titleStep (best : Chars) (line : Chars) : Chars :=
  let s := stripWs line
  if s.length > best.length ∧ s.length > 15 then s else best

/-- `PDFProcessor._extract_title_rule_based` (also `extract_title`, which
delegates to it). -/
def extract_title (t : Chars) : Chars :=
  let lines := pySplit '\n' t
  match ((lines.take 15).map stripWs).filter surviveB with
  | s :: _ => s
  | [] =>
    let longest := (lines.take 5).foldl titleStep []
    if longest ≠ [] then longest else str "Untitled Document"

/-- `\b(introduction|1\s*\.?\s*introduction)\b` matching at `i`. -/
def introAltAtB (tl : Chars) (i : Nat) : Bool :=
  wordAtB (str "introduction") tl i || numIntroAtB tl i

/-- Step 4 of `process_pdf`: selection of the body text handed to
`process_content` (abstract → introduction → fixed-offset cascade). -/
def process_pdf_body (t : Chars) : Chars :=
  let ab := find_abstract_section t
  if ab.1 > 0 then t.drop ab.1.toNat
  else
    match scanFrom (introAltAtB (lower t)) 0 t.length with
    | some i => t.drop i
    | none => if t.length > 500 then t.drop 500 else t

/-- Index of the last `'\n'` of a list, if any. -/
def lastNlIdx : Chars → Option Nat
  | [] => none
  | c :: cs =>
    match lastNlIdx cs with
    | some k => some (k+1)
    | none => if c = '\n' then some 0 else none

/-- Greedy `\s*\n` at position `q`: the end (exclusive) of the match, i.e. one
past the last newline inside the maximal whitespace run starting at `q`. -/
def tailNlEnd (t : Chars) (q : Nat) : Option Nat :=
  (lastNlIdx ((t.drop q).take (wsLenFrom t q))).map (fun k => q + k + 1)

/-- Greedy bounded class repetition followed by `\s*\n`: largest
`3 ≤ k ≤ bound` such that `\s*\n` matches at `p + k`; returns `(k, end)`. -/
def tryTailK (t : Chars) (p : Nat) : Nat → Option (Nat × Nat)
  | 0 => none
  | k+1 =>
    if k+1 < 3 then none
    else
      match tailNlEnd t (p + (k+1)) with
      | some e => some (k+1, e)
      | none => tryTailK t p k

/-- Section pattern `\n\s*(\d+\.?\d*\.?\s+[A-Z][^\n]{3,60})\s*\n` with
`re.IGNORECASE`, matching at position `i`; returns (match length, group). -/
def mP1 (t : Chars) (i : Nat) : Option (Nat × Chars) :=
  if t.get? i != some '\n' then none else
  let g := i + 1 + wsLenFrom t (i+1)
  let d1 := runLenFrom isDigitC t g
  if d1 = 0 then none else
  let p1 := g + d1
  let p2 := if t.get? p1 == some '.' then p1 + 1 else p1
  let p3 := p2 + runLenFrom isDigitC t p2
  let p4 := if t.get? p3 == some '.' then p3 + 1 else p3
  let w := wsLenFrom t p4
  if w = 0 then none else
  let p5 := p4 + w
  match t.get? p5 with
  | none => none
  | some c =>
    if !isAlphaC c then none else
    let p6 := p5 + 1
    match tryTailK t p6 (min 60 (runLenFrom (fun c => c ≠ '\n') t p6)) with
    | some (k, e) => some (e - i, (t.drop g).take (p6 + k - g))
    | none => none

/-- Section pattern `\n\s*([A-Z][A-Z\s]{3,50})\s*\n` with `re.IGNORECASE`. -/
def mP2 (t : Chars) (i : Nat) : Option (Nat × Chars) :=
  if t.get? i != some '\n' then none else
  let a := i + 1 + wsLenFrom t (i+1)
  match t.get? a with
  | none => none
  | some c =>
    if !isAlphaC c then none else
    match tryTailK t (a+1) (min 50 (runLenFrom (fun c => isAlphaC c || isWs c) t (a+1))) with
    | some (k, e) => some (e - i, (t.drop a).take (1 + k))
    | none => none

/-- Greedy `(?:\s+[A-Z][a-z]+){0,4}` (with `re.IGNORECASE`): end positions of
the successive extension words starting at `q`. -/
def p3Ext (t : Chars) : Nat → Nat → List Nat
  | _, 0 => []
  | q, n+1 =>
    let s := wsLenFrom t q
    if s = 0 then [] else
    match t.get? (q + s) with
    | none => []
    | some c =>
      if !isAlphaC c then [] else
      let L := runLenFrom isAlphaC t (q + s + 1)
      if L = 0 then [] else
      (q + s + 1 + L) :: p3Ext t (q + s + 1 + L) n

/-- Backtracking over the iteration count: first group end (tried from the
largest) at which `\s*\n` completes; returns (group end, match end). -/
def tryQs (t : Chars) : List Nat → Option (Nat × Nat)
  | [] => none
  | q :: rest =>
    match tailNlEnd t q with
    | some e => some (q, e)
    | none => tryQs t rest

/-- Section pattern `\n\s*([A-Z][a-z]+(?:\s+[A-Z][a-z]+){0,4})\s*\n` with
`re.IGNORECASE`. -/
def mP3 (t : Chars) (i : Nat) : Option (Nat × Chars) :=
  if t.get? i != some '\n' then none else
  let a := i + 1 + wsLenFrom t (i+1)
  match t.get? a with
  | none => none
  | some c =>
    if !isAlphaC c then none else
    let L1 := runLenFrom isAlphaC t (a+1)
    if L1 = 0 then none else
    let q0 := a + 1 + L1
    match tryQs t (q0 :: p3Ext t q0 4).reverse with
    | some (qe, e) => some (e - i, (t.drop a).take (qe - a))
    | none => none

def p4Lits : List Chars :=
  [str "abstract", str "introduction", str "related work", str "background",
   str "methodology", str "methods", str "results", str "discussion",
   str "conclusion", str "references", str "acknowledgments"]

/-- The alternation of pattern 4, tried in source order, each alternative
required to be followed by `\s*\n`; returns (literal length, match end). -/
def tryLits (t : Chars) (a : Nat) : List Chars → Option (Nat × Nat)
  | [] => none
  | w :: ws =>
    if ciPrefAt w t a then
      match tailNlEnd t (a + w.length) with
      | some e => some (w.length, e)
      | none => tryLits t a ws
    else tryLits t a ws

/-- Section pattern `\n\s*(Abstract|Introduction|...)\s*\n` with
`re.IGNORECASE`. -/
def mP4 (t : Chars) (i : Nat) : Option (Nat × Chars) :=
  if t.get? i != some '\n' then none else
  let a := i + 1 + wsLenFrom t (i+1)
  match tryLits t a p4Lits with
  | some (L, e) => some (e - i, (t.drop a).take L)
  | none => none

/-- `re.finditer`: leftmost non-overlapping matches, scanning resuming at each
match end. -/
def finditerP (m : Chars → Nat → Option (Nat × Chars)) (t : Chars) :
    Nat → Nat → List (Nat × Chars)
  | 0, _ => []
  | f+1, i =>
    if i < t.length then
      match m t i with
      | some (len, grp) => (i, grp) :: finditerP m t f (i + len)
      | none => finditerP m t f (i+1)
    else []

def specialChars : Chars := [':', '(', ')', '[', ']']

/-- Matches of one pattern family with the in-loop filtering of
`_parse_sections_rule_based`: strip the group, drop headers shorter than 3
characters or containing a special character. -/
def collectP (m : Chars → Nat → Option (Nat × Chars)) (t : Chars) : List (Nat × Chars) :=
  (finditerP m t (t.length + 1) 0).filterMap (fun pg =>
    let h := stripWs pg.2
    if h.length < 3 || h.any (fun c => specialChars.contains c) then none
    else some (pg.1, h))

def allMatches (t : Chars) : List (Nat × Chars) :=
  collectP mP1 t ++ collectP mP2 t ++ collectP mP3 t ++ collectP mP4 t

/-- Stable insertion by offset (Python's stable `sorted` by the first
component). -/
def insPos (x : Nat × Chars) : List (Nat × Chars) → List (Nat × Chars)
  | [] => [x]
  | y :: ys => if x.1 ≤ y.1 then x :: y :: ys else y :: insPos x ys

def sortPos : List (Nat × Chars) → List (Nat × Chars)
  | [] => []
  | x :: xs => insPos x (sortPos xs)

/-- Deduplication by exact starting offset, first occurrence kept. -/
def dedupPos : List (Nat × Chars) → List Nat → List (Nat × Chars)
  | [], _ => []
  | x :: xs, seen =>
    if seen.contains x.1 then dedupPos xs seen
    else x :: dedupPos xs (x.1 :: seen)

def uniqueMatches (t : Chars) : List (Nat × Chars) :=
  sortPos (dedupPos (sortPos (allMatches t)) [])

structure Section where
  heading : Chars
  content : Chars
deriving DecidableEq, Repr

/-- The content-slicing loop of `_parse_sections_rule_based`: content of
heading `i` is `text[pos_i : pos_(i+1)]` (to document end for the last), with
the first `len(header)` characters dropped, stripped, and rejected when
shorter than 50 characters. -/
def buildSections (t : Chars) : List (Nat × Chars) → List Section
  | [] => []
  | (pos, h) :: rest =>
    let e := match rest with
      | (p2, _) :: _ => p2
      | [] => t.length
    let content := stripWs (((t.drop pos).take (e - pos)).drop h.length)
    (if content.length < 50 then [] else [⟨h, content⟩]) ++ buildSections t rest

/-- `PDFProcessor._parse_sections_rule_based` (also `parse_sections` in the
rule-based configuration). -/
def parse_sections_rule_based (t : Chars) : List Section :=
  match buildSections t (uniqueMatches t) with
  | [] => [⟨str "Content", t⟩]
  | s => s

/-- Python `str.replace`: every non-overlapping occurrence of `p`, scanning
left to right, replaced by `r`. -/
def replaceAllF (p r : Chars) : Nat → Chars → Chars
  | 0, t => t
  | f+1, t =>
    match t with
    | [] => []
    | c :: cs =>
      if p.isPrefixOf (c :: cs) then r ++ replaceAllF p r f (cs.drop (p.length - 1))
      else c :: replaceAllF p r f cs

def replaceAll (p r t : Chars) : Chars := replaceAllF p r t.length t

/-- Leftmost occurrence of the literal `w` at a position `≥ i` (the scanning
done by a non-greedy `.*?` in front of a literal, under `re.DOTALL`). -/
def findLit (w t : Chars) (i : Nat) : Option Nat :=
  scanFrom (fun j => prefAt w t j) i (t.length + 1 - i)

/-- One match of the equation pattern
`\$\$.*?\$\$|\$.*?\$|\\begin\{equation\}.*?\\end\{equation\}` at position
`i` (alternatives tried in order): returns the match end. -/
def eqMatchAt (t : Chars) (i : Nat) : Option Nat :=
  match (if prefAt (str "$$") t i then (findLit (str "$$") t (i+2)).map (· + 2) else none) with
  | some e => some e
  | none =>
    match (if t.get? i == some '$' then (findLit (str "$") t (i+1)).map (· + 1) else none) with
    | some e => some e
    | none =>
      if prefAt (str "\x5cbegin\x7bequation\x7d") t i then
        (findLit (str "\x5cend\x7bequation\x7d") t (i+16)).map (· + 14)
      else none

def eqMatchesAux (t : Chars) : Nat → Nat → List Chars
  | 0, _ => []
  | f+1, i =>
    if i < t.length then
      match eqMatchAt t i with
      | some e => ((t.drop i).take (e - i)) :: eqMatchesAux t f e
      | none => eqMatchesAux t f (i+1)
    else []

/-- The matched substrings of `re.finditer(equation_pattern, text, re.DOTALL)`
in order. -/
def eqMatches (t : Chars) : List Chars := eqMatchesAux t (t.length + 1) 0

/-- `PDFProcessor._describe_equation_rule_based`. -/
def describe_equation_rule_based (e : Chars) : Chars :=
  if e.contains '=' then str "Mathematical equation: " ++ e
  else if ['+', '-', '*', '/', '^'].any (fun op => e.contains op) then
    str "Mathematical expression: " ++ e
  else str "Formula: " ++ e

def digitChar (n : Nat) : Char := Char.ofNat (48 + n % 10)

def natToCharsAux : Nat → Nat → Chars
  | 0, _ => []
  | f+1, n => if n < 10 then [digitChar n] else natToCharsAux f (n / 10) ++ [digitChar (n % 10)]

/-- Decimal digits of `n` (Python `str(n)` / f-string interpolation). -/
def natToChars (n : Nat) : Chars := natToCharsAux (n+1) n

/-- Python `", ".join(·)`. -/
def joinSep (s : Chars) : List Chars → Chars
  | [] => []
  | [x] => x
  | x :: y :: rest => x ++ s ++ joinSep s (y :: rest)

/-- `PDFProcessor._describe_table_rule_based`.  A table is a list of rows of
cell texts; a falsy cell (Python `None` or `""`) is the empty string. -/
def describe_table_rule_based (td : List (List Chars)) : Chars :=
  match td with
  | [] => []
  | r0 :: rest =>
    let headerText := joinSep (str ", ")
      ((if r0.isEmpty then [] else r0).filter (fun h => !h.isEmpty))
    let d1 := str "Table with " ++ natToChars td.length ++ str " rows and "
      ++ natToChars (if r0.isEmpty then 0 else r0.length) ++ str " columns. "
    let d2 := if headerText.isEmpty then d1
      else d1 ++ str "Columns include: " ++ headerText ++ str ". "
    match rest with
    | [] => d2
    | r1 :: _ =>
      d2 ++ str "Sample data: "
        ++ joinSep (str ", ") ((r1.take 3).filter (fun x => !x.isEmpty)) ++ str "."

/-- `re.search(rf'Table\s+{n}', text, re.IGNORECASE)` matching at position
`i`. -/
def tableRefAtB (t : Chars) (n : Nat) (i : Nat) : Bool :=
  ciPrefAt (str "table") t i && wsLenFrom t (i+5) != 0
    && prefAt (natToChars n) t (i + 5 + wsLenFrom t (i+5))

def tableRefEnd (t : Chars) (n : Nat) (i : Nat) : Nat :=
  i + 5 + wsLenFrom t (i+5) + (natToChars n).length

/-- One iteration of the table loop of `process_content`: insert the
description block after the end of the leftmost `Table\s+{n}` match, or leave
the text unchanged when there is none. -/
def tableStep (n : Nat) (desc : Chars) (t : Chars) : Chars :=
  match scanFrom (tableRefAtB t n) 0 t.length with
  | some i =>
    let e := tableRefEnd t n i
    t.take e ++ str "\n\n[Table " ++ natToChars n ++ str ": " ++ desc
      ++ str "]\n\n" ++ t.drop e
  | none => t

/-- `PDFProcessor.process_content`, parameterised by the Describer capability
(`de` for equations, `dt` for tables). -/
def process_content (de : Chars → Chars) (dt : List (List Chars) → Chars)
    (text : Chars) (tables : List (List (List Chars))) : Chars :=
  let t1 := remove_urls text
  let t2 := (eqMatches t1).foldl
    (fun s e => replaceAll e (str "[Equation: " ++ de e ++ str "]") s) t1
  (tables.enum).foldl (fun s p => tableStep (p.1 + 1) (dt p.2) s) t2

/-- `process_content` with the rule-based describers (the configuration the
code uses when no API client is available). -/
def process_content_rb (text : Chars) (tables : List (List (List Chars))) : Chars :=
  process_content describe_equation_rule_based describe_table_rule_based text tables

/-- The decomposition underlying `replaceAllF`: the fragments of `t` between
successive non-overlapping occurrences of `p`. -/
def splitOnSubF (p : Chars) : Nat → Chars → List Chars
  | 0, t => [t]
  | _+1, [] => [[]]
  | f+1, c :: cs =>
    if p.isPrefixOf (c :: cs) then [] :: splitOnSubF p f (cs.drop (p.length - 1))
    else
      match splitOnSubF p f cs with
      | [] => [[c]]
      | h :: rest => (c :: h) :: rest

def splitOnSub (p t : Chars) : List Chars := splitOnSubF p t.length t

/-- No two adjacent whitespace characters. -/
def noWsRunB : Chars → Bool
  | c :: d :: rest => !(isWs c && isWs d) && noWsRunB (d :: rest)
  | _ => true

def headNotWsB : Chars → Bool
  | [] => true
  | c :: _ => !isWs c

def lastNotWsB : Chars → Bool
  | [] => true
  | [c] => !isWs c
  | _ :: d :: rest => lastNotWsB (d :: rest)

/-- Leftmost whole-word occurrence of `w`, phrased as a search over all
positions of the text (the specification-side reading of `re.search`). -/
def firstWordPos (w t : Chars) : Option Nat := (List.range t.length).find? (wordAtB w t)

def firstNumIntroPos (t : Chars) : Option Nat := (List.range t.length).find? (numIntroAtB t)

/-- Specification-side end phase: the first pattern in the priority list
(introduction, numbered introduction, keywords) that occurs anywhere in the
text after the found start determines the end; otherwise end of text. -/
def abstractEndSpec (tl : Chars) (s : Nat) : Nat :=
  let suf := tl.drop s
  match firstWordPos (str "introduction") suf with
  | some j => s + j
  | none =>
    match firstNumIntroPos suf with
    | some j => s + j
    | none =>
      match firstWordPos (str "keywords") suf with
      | some j => s + j
      | none => tl.length

/-- Specification-side abstract span: start is the position of the first
whole-word "abstract" whenever one exists anywhere (regardless of where
"summary" occurs), else the first "summary", else the absent sentinel. -/
def abstractSpanSpec (t : Chars) : Int × Int :=
  let tl := lower t
  match firstWordPos (str "abstract") tl with
  | some s => (Int.ofNat s, Int.ofNat (abstractEndSpec tl s))
  | none =>
    match firstWordPos (str "summary") tl with
    | some s => (Int.ofNat s, Int.ofNat (abstractEndSpec tl s))
    | none => (-1, -1)

/-- Position of the textually first whole-word (optionally numbered)
introduction match. -/
def introFirstPos (t : Chars) : Option Nat :=
  (List.range t.length).find? (introAltAtB (lower t))

/-- Position of the first `Table\s+{n}` occurrence. -/
def tableRefFirst (t : Chars) (n : Nat) : Option Nat :=
  (List.range t.length).find? (tableRefAtB t n)

/-- Specification-side title extraction: the first stripped line among the
first 15 surviving all filters; otherwise the fallback fold over the first 5
lines; otherwise the sentinel. -/
def titleSpec (t : Chars) : Chars :=
  let lines := pySplit '\n' t
  match ((lines.take 15).map stripWs).find? surviveB with
  | some s => s
  | none =>
    let longest := (lines.take 5).foldl titleStep []
    if longest ≠ [] then longest else str "Untitled Document"

def c1Text : Chars := str "\nIntroduction\n" ++ List.replicate 60 'a'

def c3Doubled : Chars := str "see $E=mc^2$ and $E=mc^2$ end"

def c3Marker : Chars :=
  str "[Equation: Mathematical equation: [Equation: Mathematical equation: $E=mc^2$]]"

def c9Bad : Chars := str "http://x http:pa@b.co//x"

def c10Bad : Chars := str "\x5cbeginhttp://q\x7bequation\x7d x=1 \x5cend\x7bequation\x7d"

theorem scanFrom_eq_findq (p : Nat → Bool) :
    ∀ (f i : Nat), scanFrom p i f = (List.range' i f).find? p := by
  intro f
  induction f with
  | zero => intro i; rfl
  | succ f ih =>
    intro i
    simp only [scanFrom, List.range']
    cases hp : p i with
    | true => simp [List.find?, hp]
    | false => simp [List.find?, hp, ih]

theorem scanFrom_some (p : Nat → Bool) : ∀ (f i k : Nat), scanFrom p i f = some k →
    i ≤ k ∧ k < i + f ∧ p k = true ∧ ∀ j, i ≤ j → j < k → p j = false := by
  intro f
  induction f with
  | zero => intro i k h; exact absurd h (by simp [scanFrom])
  | succ f ih =>
    intro i k h
    simp only [scanFrom] at h
    cases hp : p i with
    | true =>
      rw [hp] at h; simp at h; subst h
      exact ⟨Nat.le_refl _, by omega, hp, fun j h1 h2 => absurd h1 (by omega)⟩
    | false =>
      rw [hp] at h; simp at h
      obtain ⟨h1, h2, h3, h4⟩ := ih (i+1) k h
      refine ⟨by omega, by omega, h3, fun j hj1 hj2 => ?_⟩
      rcases Nat.eq_or_lt_of_le hj1 with rfl | hlt
      · exact hp
      · exact h4 j hlt hj2

theorem scanFrom_none_of (p : Nat → Bool) :
    ∀ (f i : Nat), (∀ j, i ≤ j → j < i + f → p j = false) → scanFrom p i f = none := by
  intro f
  induction f with
  | zero => intro i _; rfl
  | succ f ih =>
    intro i h
    simp only [scanFrom]
    rw [h i (Nat.le_refl _) (by omega)]
    exact ih (i+1) (fun j h1 h2 => h j (by omega) (by omega))

theorem scan0 (p : Nat → Bool) (n : Nat) :
    scanFrom p 0 n = (List.range n).find? p := by
  rw [scanFrom_eq_findq, List.range_eq_range']

theorem splitOnSubF_ne (p : Chars) : ∀ (f : Nat) (t : Chars), splitOnSubF p f t ≠ [] := by
  intro f
  induction f with
  | zero => intro t; simp [splitOnSubF]
  | succ f ih =>
    intro t
    cases t with
    | nil => simp [splitOnSubF]
    | cons c cs =>
      simp only [splitOnSubF]
      by_cases hp : p.isPrefixOf (c :: cs) = true
      · simp [hp]
      · simp only [Bool.not_eq_true] at hp
        rw [hp]
        cases h : splitOnSubF p f cs <;> simp

theorem splitOnSubF_head (p : Chars) :
    ∀ (f : Nat) (t : Chars), ∃ h rest, splitOnSubF p f t = h :: rest ∧ h <+: t := by
  intro f
  induction f with
  | zero => intro t; exact ⟨t, [], rfl, List.prefix_refl t⟩
  | succ f ih =>
    intro t
    cases t with
    | nil => exact ⟨[], [], rfl, List.prefix_refl []⟩
    | cons c cs =>
      simp only [splitOnSubF]
      by_cases hp : p.isPrefixOf (c :: cs) = true
      · rw [if_pos hp]
        exact ⟨[], _, rfl, List.nil_prefix⟩
      · rw [if_neg hp]
        obtain ⟨h, rest, heq, hpre⟩ := ih cs
        rw [heq]
        exact ⟨c :: h, rest, rfl, (List.prefix_cons_inj c).mpr hpre⟩

theorem replaceAllF_eq_joinSep (p r : Chars) :
    ∀ (f : Nat) (t : Chars), replaceAllF p r f t = joinSep r (splitOnSubF p f t) := by
  intro f
  induction f with
  | zero => intro t; simp [replaceAllF, splitOnSubF, joinSep]
  | succ f ih =>
    intro t
    cases t with
    | nil => simp [replaceAllF, splitOnSubF, joinSep]
    | cons c cs =>
      simp only [replaceAllF, splitOnSubF]
      by_cases hp : p.isPrefixOf (c :: cs) = true
      · rw [if_pos hp, if_pos hp, ih]
        obtain ⟨h, rest, heq, _⟩ := splitOnSubF_head p f (cs.drop (p.length - 1))
        rw [heq]
        simp [joinSep]
      · rw [if_neg hp, if_neg hp, ih]
        obtain ⟨h, rest, heq, _⟩ := splitOnSubF_head p f cs
        rw [heq]
        cases rest <;> simp [joinSep]

theorem joinSep_splitOnSubF (p : Chars) (hp : p ≠ []) :
    ∀ (f : Nat) (t : Chars), joinSep p (splitOnSubF p f t) = t := by
  intro f
  induction f with
  | zero => intro t; simp [splitOnSubF, joinSep]
  | succ f ih =>
    intro t
    cases t with
    | nil => simp [splitOnSubF, joinSep]
    | cons c cs =>
      simp only [splitOnSubF]
      by_cases hpp : p.isPrefixOf (c :: cs) = true
      · rw [if_pos hpp]
        obtain ⟨h, rest, heq, _⟩ := splitOnSubF_head p f (cs.drop (p.length - 1))
        rw [heq]
        simp only [joinSep, List.nil_append]
        rw [← heq, ih]
        have hpre : p <+: (c :: cs) := List.isPrefixOf_iff_prefix.mp hpp
        obtain ⟨u, hu⟩ := hpre
        have hd : cs.drop (p.length - 1) = u := by
          have : ((p ++ u).drop p.length) = u := List.drop_left p u
          rw [hu] at this
          cases p with
          | nil => exact absurd rfl hp
          | cons a as => simpa using this
        rw [hd, hu]
      · rw [if_neg hpp]
        obtain ⟨h, rest, heq, _⟩ := splitOnSubF_head p f cs
        rw [heq]
        cases rest with
        | nil =>
          simp only [joinSep]
          have := ih cs
          rw [heq] at this
          simp only [joinSep] at this
          rw [this]
        | cons h2 rest2 =>
          have := ih cs
          rw [heq] at this
          simp only [joinSep] at this ⊢
          rw [← this]
          simp

theorem splitOnSubF_free (p : Chars) (hp : p ≠ []) :
    ∀ (f : Nat) (t : Chars), t.length ≤ f →
      ∀ x ∈ splitOnSubF p f t, ∀ i, p.isPrefixOf (x.drop i) = false := by
  intro f
  induction f with
  | zero =>
    intro t ht x hx i
    have : t = [] := List.length_eq_zero.mp (Nat.le_zero.mp ht)
    subst this
    simp only [splitOnSubF, List.mem_singleton] at hx
    subst hx
    simp only [List.drop_nil]
    cases hc : p.isPrefixOf ([] : Chars) with
    | false => rfl
    | true =>
      exact absurd (List.prefix_nil.mp (List.isPrefixOf_iff_prefix.mp hc)) hp
  | succ f ih =>
    intro t ht x hx i
    cases t with
    | nil =>
      simp only [splitOnSubF, List.mem_singleton] at hx
      subst hx
      simp only [List.drop_nil]
      cases hc : p.isPrefixOf ([] : Chars) with
      | false => rfl
      | true =>
        exact absurd (List.prefix_nil.mp (List.isPrefixOf_iff_prefix.mp hc)) hp
    | cons c cs =>
      simp only [splitOnSubF] at hx
      by_cases hpp : p.isPrefixOf (c :: cs) = true
      · rw [if_pos hpp] at hx
        rcases List.mem_cons.mp hx with rfl | hx2
        · simp only [List.drop_nil]
          cases hc : p.isPrefixOf ([] : Chars) with
          | false => rfl
          | true =>
            exact absurd (List.prefix_nil.mp (List.isPrefixOf_iff_prefix.mp hc)) hp
        · refine ih (cs.drop (p.length - 1)) ?_ x hx2 i
          have h1 : cs.length ≤ f := by
            simpa using Nat.le_of_succ_le_succ ht
          calc (cs.drop (p.length - 1)).length ≤ cs.length := by
                simp [List.length_drop]
            _ ≤ f := h1
      · rw [if_neg hpp] at hx
        obtain ⟨h, rest, heq, hpre⟩ := splitOnSubF_head p f cs
        rw [heq] at hx
        have hcs : cs.length ≤ f := by simpa using Nat.le_of_succ_le_succ ht
        rcases List.mem_cons.mp hx with rfl | hx2
        · cases i with
          | zero =>
            simp only [List.drop_zero]
            cases hc : p.isPrefixOf (c :: h) with
            | false => rfl
            | true =>
              exfalso
              have h1 : p <+: (c :: h) := List.isPrefixOf_iff_prefix.mp hc
              have h2 : (c :: h) <+: (c :: cs) := (List.prefix_cons_inj c).mpr hpre
              exact absurd (List.isPrefixOf_iff_prefix.mpr (h1.trans h2)) (by simp [hpp])
          | succ j =>
            simp only [List.drop_succ_cons]
            have hh : h ∈ splitOnSubF p f cs := by rw [heq]; exact List.mem_cons_self _ _
            have := ih cs hcs h hh j
            cases hc : p.isPrefixOf (h.drop j) with
            | false => rfl
            | true =>
              rw [this] at hc
              exact absurd hc (by simp)
        · exact ih cs hcs x (by rw [heq]; exact List.mem_cons_of_mem _ hx2) i

theorem noWsRunB_tail {c : Char} {l : Chars} (h : noWsRunB (c :: l) = true) :
    noWsRunB l = true := by
  cases l with
  | nil => rfl
  | cons d ds =>
    simp only [noWsRunB, Bool.and_eq_true] at h
    exact h.2

theorem mem_squeezeWs : ∀ (l : Chars) (x : Char), x ∈ squeezeWs l → x ∈ l := by
  intro l
  induction l with
  | nil => intro x h; simp [squeezeWs] at h
  | cons c cs ih =>
    intro x h
    simp only [squeezeWs] at h
    cases hs : squeezeWs cs with
    | nil =>
      rw [hs] at h
      simp only [List.mem_singleton] at h
      simp [h]
    | cons d ds =>
      rw [hs] at h
      cases hcd : (c == ' ' && d == ' ') with
      | true =>
        simp only [hcd, if_true] at h
        exact List.mem_cons_of_mem c (ih x (by rw [hs]; exact h))
      | false =>
        simp only [hcd, Bool.false_eq_true, if_false] at h
        rcases List.mem_cons.mp h with rfl | h2
        · exact List.mem_cons_self _ _
        · exact List.mem_cons_of_mem c (ih x (by rw [hs]; exact h2))

theorem noWsRunB_squeezeWs :
    ∀ (l : Chars), (∀ c ∈ l, isWs c = true → c = ' ') → noWsRunB (squeezeWs l) = true := by
  intro l
  induction l with
  | nil => intro _; rfl
  | cons c cs ih =>
    intro hws
    have ih2 := ih (fun x hx h => hws x (List.mem_cons_of_mem c hx) h)
    simp only [squeezeWs]
    cases hs : squeezeWs cs with
    | nil => rfl
    | cons d ds =>
      cases hcd : (c == ' ' && d == ' ') with
      | true =>
        simp only [hcd, if_true]
        rw [← hs]; exact ih2
      | false =>
        simp only [hcd, Bool.false_eq_true, if_false]
        simp only [noWsRunB, Bool.and_eq_true]
        refine ⟨?_, by rw [← hs]; exact ih2⟩
        by_cases hc : isWs c = true
        · by_cases hd : isWs d = true
          · exfalso
            have hc2 := hws c (List.mem_cons_self _ _) hc
            have hd2 := hws d
              (List.mem_cons_of_mem c (mem_squeezeWs cs d (by rw [hs]; exact List.mem_cons_self _ _)))
              hd
            rw [hc2] at hcd
            rw [hd2] at hcd
            simp at hcd
          · simp [hd]
        · simp [hc]

theorem wsToSpace_spaces (l : Chars) : ∀ c ∈ wsToSpace l, isWs c = true → c = ' ' := by
  intro c hc hw
  simp only [wsToSpace, List.mem_map] at hc
  obtain ⟨b, _, hb⟩ := hc
  by_cases h : isWs b = true
  · simp only [h, if_true] at hb
    exact hb.symm
  · simp only [h, Bool.false_eq_true, if_false] at hb
    rw [← hb] at hw
    exact absurd hw (by simp [h])

theorem noWsRunB_dropWhile (p : Char → Bool) :
    ∀ (l : Chars), noWsRunB l = true → noWsRunB (l.dropWhile p) = true := by
  intro l
  induction l with
  | nil => intro _; rfl
  | cons c cs ih =>
    intro h
    simp only [List.dropWhile]
    cases hp : p c with
    | true => exact ih (noWsRunB_tail h)
    | false => exact h

theorem dropTrailWs_head : ∀ (c : Char) (cs : Chars),
    dropTrailWs (c :: cs) = [] ∨ ∃ tl, dropTrailWs (c :: cs) = c :: tl := by
  intro c cs
  simp only [dropTrailWs]
  cases h : dropTrailWs cs with
  | nil =>
    by_cases hc : isWs c = true
    · left; simp [hc]
    · right; exact ⟨[], by simp [hc]⟩
  | cons d ds => right; exact ⟨d :: ds, rfl⟩

theorem noWsRunB_dropTrailWs : ∀ (l : Chars), noWsRunB l = true →
    noWsRunB (dropTrailWs l) = true := by
  intro l
  induction l with
  | nil => intro _; rfl
  | cons c cs ih =>
    intro h
    simp only [dropTrailWs]
    cases hd : dropTrailWs cs with
    | nil =>
      by_cases hc : isWs c = true
      · simp [hc]; rfl
      · simp [hc, noWsRunB]
    | cons d ds =>
      have ih2 : noWsRunB (d :: ds) = true := by rw [← hd]; exact ih (noWsRunB_tail h)
      simp only [noWsRunB, Bool.and_eq_true]
      refine ⟨?_, ih2⟩
      cases cs with
      | nil => simp [dropTrailWs] at hd
      | cons c2 cs2 =>
        rcases dropTrailWs_head c2 cs2 with h0 | ⟨tl, htl⟩
        · rw [h0] at hd; exact absurd hd (by simp)
        · rw [htl] at hd
          injection hd with h1 _
          subst h1
          simp only [noWsRunB, Bool.and_eq_true] at h
          exact h.1

theorem headNotWsB_dropWhile : ∀ (l : Chars), headNotWsB (l.dropWhile isWs) = true := by
  intro l
  induction l with
  | nil => rfl
  | cons c cs ih =>
    simp only [List.dropWhile]
    cases hc : isWs c with
    | true => exact ih
    | false => simp [headNotWsB, hc]

theorem headNotWsB_dropTrailWs : ∀ (l : Chars), headNotWsB l = true →
    headNotWsB (dropTrailWs l) = true := by
  intro l h
  cases l with
  | nil => rfl
  | cons c cs =>
    rcases dropTrailWs_head c cs with h0 | ⟨tl, htl⟩
    · rw [h0]; rfl
    · rw [htl]
      simpa [headNotWsB] using h

theorem lastNotWsB_dropTrailWs : ∀ (l : Chars), lastNotWsB (dropTrailWs l) = true := by
  intro l
  induction l with
  | nil => rfl
  | cons c cs ih =>
    simp only [dropTrailWs]
    cases hd : dropTrailWs cs with
    | nil =>
      by_cases hc : isWs c = true <;> simp [hc, lastNotWsB]
    | cons d ds =>
      rw [hd] at ih
      simpa [lastNotWsB] using ih

theorem stripWs_clean (l : Chars) (h : noWsRunB l = true) :
    noWsRunB (stripWs l) = true ∧ headNotWsB (stripWs l) = true
      ∧ lastNotWsB (stripWs l) = true := by
  refine ⟨?_, ?_, ?_⟩
  · exact noWsRunB_dropTrailWs _ (noWsRunB_dropWhile isWs l h)
  · exact headNotWsB_dropTrailWs _ (headNotWsB_dropWhile l)
  · exact lastNotWsB_dropTrailWs _

theorem remove_urls_clean (t : Chars) :
    noWsRunB (remove_urls t) = true ∧ headNotWsB (remove_urls t) = true
      ∧ lastNotWsB (remove_urls t) = true := by
  unfold remove_urls
  exact stripWs_clean _ (noWsRunB_squeezeWs _ (wsToSpace_spaces _))

theorem filter_head_eq_findq {α : Type} (p : α → Bool) :
    ∀ (l : List α), (l.filter p).head? = l.find? p := by
  intro l
  induction l with
  | nil => rfl
  | cons a as ih =>
    simp only [List.filter, List.find?]
    cases hp : p a with
    | true => rfl
    | false => exact ih

theorem titleFold_le : ∀ (ls : List Chars) (b : Chars),
    b.length ≤ (ls.foldl titleStep b).length := by
  intro ls
  induction ls with
  | nil => intro b; exact Nat.le_refl _
  | cons l ls ih =>
    intro b
    simp only [List.foldl_cons]
    refine Nat.le_trans ?_ (ih (titleStep b l))
    simp only [titleStep]
    by_cases hc : (stripWs l).length > b.length ∧ (stripWs l).length > 15
    · rw [if_pos hc]; exact Nat.le_of_lt hc.1
    · rw [if_neg hc]

theorem titleFold_cases : ∀ (ls : List Chars) (b : Chars),
    ls.foldl titleStep b = b ∨
      (15 < (ls.foldl titleStep b).length ∧ ls.foldl titleStep b ∈ ls.map stripWs) := by
  intro ls
  induction ls with
  | nil => intro b; exact Or.inl rfl
  | cons l ls ih =>
    intro b
    simp only [List.foldl_cons]
    rcases ih (titleStep b l) with heq | ⟨hlen, hmem⟩
    · rw [heq]
      simp only [titleStep]
      by_cases hc : (stripWs l).length > b.length ∧ (stripWs l).length > 15
      · rw [if_pos hc]
        exact Or.inr ⟨hc.2, by simp⟩
      · rw [if_neg hc]; exact Or.inl rfl
    · exact Or.inr ⟨hlen, by simp only [List.map_cons]; exact List.mem_cons_of_mem _ hmem⟩

theorem titleFold_max : ∀ (ls : List Chars) (b : Chars) (l : Chars), l ∈ ls →
    (stripWs l).length ≤ (ls.foldl titleStep b).length ∨ (stripWs l).length ≤ 15 := by
  intro ls
  induction ls with
  | nil => intro b l h; exact absurd h (List.not_mem_nil l)
  | cons x xs ih =>
    intro b l h
    simp only [List.foldl_cons]
    rcases List.mem_cons.mp h with rfl | h2
    · simp only [titleStep]
      by_cases hc : (stripWs l).length > b.length ∧ (stripWs l).length > 15
      · rw [if_pos hc]
        exact Or.inl (titleFold_le xs _)
      · rw [if_neg hc]
        rcases Nat.lt_or_ge b.length (stripWs l).length with hlt | hge
        · right
          by_contra h15
          exact hc ⟨hlt, by omega⟩
        · exact Or.inl (Nat.le_trans hge (titleFold_le xs b))
    · exact ih (titleStep b x) l h2

theorem abstractEnd_eq (tl : Chars) (s : Nat) : abstractEnd tl s = abstractEndSpec tl s := by
  simp only [abstractEnd, abstractEndSpec, firstWordPos, firstNumIntroPos, scan0]

theorem wordAtB_isPrefix {w t : Chars} {i : Nat} (h : wordAtB w t i = true) :
    w <+: t.drop i := by
  simp only [wordAtB, prefAt, Bool.and_eq_true] at h
  exact List.isPrefixOf_iff_prefix.mp h.1.1

theorem abstractEnd_bounds (tl : Chars) (s : Nat) (c : Char) (u : Chars)
    (hdrop : tl.drop s = c :: u) (h1 : c ≠ 'i') (h2 : c ≠ '1') (h3 : c ≠ 'k')
    (hs : s < tl.length) :
    s < abstractEnd tl s ∧ abstractEnd tl s ≤ tl.length := by
  have hlen : (tl.drop s).length = tl.length - s := List.length_drop s tl
  cases hsc1 : scanFrom (wordAtB (str "introduction") (tl.drop s)) 0 (tl.drop s).length with
  | some j =>
    have hval : abstractEnd tl s = s + j := by simp only [abstractEnd, hsc1]
    obtain ⟨_, hlt, hp, _⟩ := scanFrom_some _ _ _ _ hsc1
    have hj : j ≠ 0 := by
      intro h0; subst h0
      have hpre := wordAtB_isPrefix hp
      rw [List.drop_zero, hdrop] at hpre
      obtain ⟨v, hv⟩ := hpre
      have hiw : str "introduction" = 'i' :: str "ntroduction" := rfl
      rw [hiw, List.cons_append] at hv
      injection hv with hc _
      exact h1 hc.symm
    rw [hval]
    constructor
    · omega
    · omega
  | none =>
    cases hsc2 : scanFrom (numIntroAtB (tl.drop s)) 0 (tl.drop s).length with
    | some j =>
      have hval : abstractEnd tl s = s + j := by simp only [abstractEnd, hsc1, hsc2]
      obtain ⟨_, hlt, hp, _⟩ := scanFrom_some _ _ _ _ hsc2
      have hj : j ≠ 0 := by
        intro h0; subst h0
        simp only [numIntroAtB, Bool.and_eq_true, beq_iff_eq] at hp
        have := hp.1.1
        rw [hdrop] at this
        simp only [List.get?] at this
        injection this with hc
        exact h2 hc
      rw [hval]
      constructor
      · omega
      · omega
    | none =>
      cases hsc3 : scanFrom (wordAtB (str "keywords") (tl.drop s)) 0 (tl.drop s).length with
      | some j =>
        have hval : abstractEnd tl s = s + j := by
          simp only [abstractEnd, hsc1, hsc2, hsc3]
        obtain ⟨_, hlt, hp, _⟩ := scanFrom_some _ _ _ _ hsc3
        have hj : j ≠ 0 := by
          intro h0; subst h0
          have hpre := wordAtB_isPrefix hp
          rw [List.drop_zero, hdrop] at hpre
          obtain ⟨v, hv⟩ := hpre
          have hkw : str "keywords" = 'k' :: str "eywords" := rfl
          rw [hkw, List.cons_append] at hv
          injection hv with hc _
          exact h3 hc.symm
        rw [hval]
        constructor
        · omega
        · omega
      | none =>
        have hval : abstractEnd tl s = tl.length := by
          simp only [abstractEnd, hsc1, hsc2, hsc3]
        rw [hval]
        exact ⟨hs, Nat.le_refl _⟩

theorem lower_length (t : Chars) : (lower t).length = t.length := by
  simp [lower]

theorem find_abstract_cases (t : Chars) :
    (∃ s, scanFrom (wordAtB (str "abstract") (lower t)) 0 (lower t).length = some s
       ∧ find_abstract_section t = (Int.ofNat s, Int.ofNat (abstractEnd (lower t) s)))
    ∨ (scanFrom (wordAtB (str "abstract") (lower t)) 0 (lower t).length = none
       ∧ ∃ s, scanFrom (wordAtB (str "summary") (lower t)) 0 (lower t).length = some s
         ∧ find_abstract_section t = (Int.ofNat s, Int.ofNat (abstractEnd (lower t) s)))
    ∨ (scanFrom (wordAtB (str "abstract") (lower t)) 0 (lower t).length = none
       ∧ scanFrom (wordAtB (str "summary") (lower t)) 0 (lower t).length = none
       ∧ find_abstract_section t = (-1, -1)) := by
  simp only [find_abstract_section]
  cases habs : scanFrom (wordAtB (str "abstract") (lower t)) 0 (lower t).length with
  | some s => exact Or.inl ⟨s, rfl, rfl⟩
  | none =>
    cases hsum : scanFrom (wordAtB (str "summary") (lower t)) 0 (lower t).length with
    | some s => exact Or.inr (Or.inl ⟨rfl, s, rfl, rfl⟩)
    | none => exact Or.inr (Or.inr ⟨rfl, rfl, rfl⟩)

/-- Claim C4: in `find_abstract_section`, pattern-list order beats textual
order at both phases: the start is the first whole-word "abstract" whenever
one exists anywhere (else the first "summary", else absent), and the end is
determined by the first end pattern in priority order that matches after the
start, not by the textually earliest end pattern.  The concrete instances
exhibit a "summary" occurring before "abstract" and a "keywords" occurring
before "introduction". -/
theorem c4_abstract_priority :
    (∀ t : Chars, find_abstract_section t = abstractSpanSpec t)
    ∧ find_abstract_section (str "summary first then abstract here") = (19, 32)
    ∧ find_abstract_section (str "abstract AA keywords BB introduction CC") = (0, 24) := by
  refine ⟨?_, by decide, by decide⟩
  intro t
  simp only [find_abstract_section, abstractSpanSpec, firstWordPos, abstractEnd_eq, scan0]

/-- Claim C5: `find_abstract_section` returns either the absent sentinel
`(-1, -1)` or a pair `(start, end)` with `0 ≤ start < end ≤ len(text)`; and
whenever a start is found but no end pattern matches after it, the end equals
`len(text)`. -/
theorem c5_span_invariant :
    (∀ t : Chars, find_abstract_section t = (-1, -1) ∨
      ∃ s e : Nat, find_abstract_section t = (Int.ofNat s, Int.ofNat e)
        ∧ s < e ∧ e ≤ t.length)
    ∧ (∀ (t : Chars) (s : Nat), (find_abstract_section t).1 = Int.ofNat s →
        (∀ j, j < ((lower t).drop s).length →
          wordAtB (str "introduction") ((lower t).drop s) j = false) →
        (∀ j, j < ((lower t).drop s).length →
          numIntroAtB ((lower t).drop s) j = false) →
        (∀ j, j < ((lower t).drop s).length →
          wordAtB (str "keywords") ((lower t).drop s) j = false) →
        (find_abstract_section t).2 = Int.ofNat t.length) := by
  constructor
  · intro t
    rcases find_abstract_cases t with ⟨s, hsc, heq⟩ | ⟨_, s, hsc, heq⟩ | ⟨_, _, heq⟩
    · right
      obtain ⟨_, hlt, hp, _⟩ := scanFrom_some _ _ _ _ hsc
      have hpre := wordAtB_isPrefix hp
      obtain ⟨v, hv⟩ := hpre
      have haw : str "abstract" = 'a' :: str "bstract" := rfl
      rw [haw, List.cons_append] at hv
      have hs : s < (lower t).length := by omega
      obtain ⟨hb1, hb2⟩ := abstractEnd_bounds (lower t) s 'a' _ hv.symm
        (by decide) (by decide) (by decide) hs
      exact ⟨s, abstractEnd (lower t) s, heq, hb1, by rw [← lower_length t]; exact hb2⟩
    · right
      obtain ⟨_, hlt, hp, _⟩ := scanFrom_some _ _ _ _ hsc
      have hpre := wordAtB_isPrefix hp
      obtain ⟨v, hv⟩ := hpre
      have hsw : str "summary" = 's' :: str "ummary" := rfl
      rw [hsw, List.cons_append] at hv
      have hs : s < (lower t).length := by omega
      obtain ⟨hb1, hb2⟩ := abstractEnd_bounds (lower t) s 's' _ hv.symm
        (by decide) (by decide) (by decide) hs
      exact ⟨s, abstractEnd (lower t) s, heq, hb1, by rw [← lower_length t]; exact hb2⟩
    · exact Or.inl heq
  · intro t s h1 hI hN hK
    have hIn : scanFrom (wordAtB (str "introduction") ((lower t).drop s)) 0
        ((lower t).drop s).length = none :=
      scanFrom_none_of _ _ _ (fun j _ hj => hI j (by omega))
    have hNn : scanFrom (numIntroAtB ((lower t).drop s)) 0
        ((lower t).drop s).length = none :=
      scanFrom_none_of _ _ _ (fun j _ hj => hN j (by omega))
    have hKn : scanFrom (wordAtB (str "keywords") ((lower t).drop s)) 0
        ((lower t).drop s).length = none :=
      scanFrom_none_of _ _ _ (fun j _ hj => hK j (by omega))
    have hend : abstractEnd (lower t) s = t.length := by
      simp only [abstractEnd]
      rw [hIn, hNn, hKn, lower_length]
    rcases find_abstract_cases t with ⟨s', _, heq⟩ | ⟨_, s', _, heq⟩ | ⟨_, _, heq⟩
    · rw [heq] at h1 ⊢
      have h1b : (s' : Int) = (s : Int) := h1
      have : s' = s := by omega
      subst this
      show Int.ofNat (abstractEnd (lower t) s') = Int.ofNat t.length
      rw [hend]
    · rw [heq] at h1 ⊢
      have h1b : (s' : Int) = (s : Int) := h1
      have : s' = s := by omega
      subst this
      show Int.ofNat (abstractEnd (lower t) s') = Int.ofNat t.length
      rw [hend]
    · rw [heq] at h1
      have h1b : (-1 : Int) = (s : Int) := h1
      exact absurd h1b (by omega)

/-- Claim C5 witness: a text with an abstract heading and no end pattern, at
which the no-end-match hypotheses are discharged concretely. -/
theorem c5_witness :
    (find_abstract_section (str "xy abstract tail")).2
      = Int.ofNat (str "xy abstract tail").length :=
  c5_span_invariant.2 (str "xy abstract tail") 3 (by decide) (by decide) (by decide) (by decide)

/-- Claim C6: the body-selection fallback cascade of `process_pdf`: when the
located abstract span's start is `> 0` the body is the text from that start
onward; otherwise the text from the first whole-word (optionally numbered)
introduction match onward when one exists; otherwise the text from offset 500
onward (the whole text when not longer than 500). -/
theorem c6_body_cascade :
    (∀ t : Chars, process_pdf_body t =
      (if (find_abstract_section t).1 > 0 then t.drop (find_abstract_section t).1.toNat
       else
         match introFirstPos t with
         | some i => t.drop i
         | none => if t.length > 500 then t.drop 500 else t))
    ∧ process_pdf_body (str "head stuff Abstract body here") = str "Abstract body here"
    ∧ process_pdf_body (str "abstract at zero. 1. Introduction follows here")
        = str "1. Introduction follows here"
    ∧ process_pdf_body (str "no markers, short text") = str "no markers, short text"
    ∧ process_pdf_body (List.replicate 501 'x') = ['x'] := by
  refine ⟨?_, by decide, by decide, by decide, by decide⟩
  intro t
  simp only [process_pdf_body, introFirstPos, scan0]

/-- Claim C3: in the equation step of the content substitutor, each match is
handled by a whole-string replacement: every occurrence of the matched
equation substring in the current text is replaced by the bracketed
description block (first general conjunct, phrased through the fragment
decomposition of `replaceAll`), and on an input containing `$E=mc^2$` twice
both occurrences are replaced identically (the two concrete conjuncts; the
rule-based description echoes the equation, so the second iteration of the
loop wraps both markers again, identically). -/
theorem c3_equation_replace_all :
    (∀ (p r t : Chars), p ≠ [] →
      ∃ parts : List Chars, parts ≠ []
        ∧ joinSep p parts = t
        ∧ replaceAll p r t = joinSep r parts
        ∧ ∀ x ∈ parts, ∀ i, p.isPrefixOf (x.drop i) = false)
    ∧ eqMatches (remove_urls c3Doubled) = [str "$E=mc^2$", str "$E=mc^2$"]
    ∧ process_content_rb c3Doubled []
        = str "see " ++ c3Marker ++ str " and " ++ c3Marker ++ str " end" := by
  refine ⟨?_, by decide, by decide⟩
  intro p r t hp
  exact ⟨splitOnSub p t, splitOnSubF_ne p t.length t,
    joinSep_splitOnSubF p hp t.length t,
    replaceAllF_eq_joinSep p r t.length t,
    fun x hx i => splitOnSubF_free p hp t.length t (Nat.le_refl _) x hx i⟩

/-- Claim C3 witness: the general conjunct applied at a concrete pattern,
replacement and text. -/
theorem c3_witness :
    ∃ parts : List Chars, parts ≠ []
      ∧ joinSep (str "b") parts = str "abc"
      ∧ replaceAll (str "b") (str "R") (str "abc") = joinSep (str "R") parts
      ∧ ∀ x ∈ parts, ∀ i, (str "b").isPrefixOf (x.drop i) = false :=
  c3_equation_replace_all.1 (str "b") (str "R") (str "abc") (by decide)

/-- Claim C2: the rule-based segmenter always returns a non-empty sequence,
and whenever zero candidate sections survive the filtering it returns exactly
the synthetic section with heading "Content" whose content is the entire
input text. -/
theorem c2_segmenter_nonempty :
    ∀ t : Chars, parse_sections_rule_based t ≠ []
      ∧ (buildSections t (uniqueMatches t) = [] →
          parse_sections_rule_based t = [⟨str "Content", t⟩]) := by
  intro t
  unfold parse_sections_rule_based
  cases h : buildSections t (uniqueMatches t) with
  | nil => exact ⟨by simp, fun _ => rfl⟩
  | cons a as => exact ⟨by simp, fun hc => absurd hc (by simp)⟩

/-- Claim C2 witness: an input with no recognizable heading. -/
theorem c2_witness :
    parse_sections_rule_based (str "hello") = [⟨str "Content", str "hello"⟩] :=
  (c2_segmenter_nonempty (str "hello")).2 (by decide)

/-- Claim C1 (failing input): on `"\nIntroduction\n" ++ 60 × 'a'` the single
returned section's content is `"n\n" ++ 60 × 'a'` — the code drops
`len(header)` characters from a slice that starts at the match's leading
newline, so the residue "n" of the heading "Introduction" remains — whereas
the claim's stripped-and-trimmed content would be the 60 `'a'`s. -/
theorem c1_heading_residue :
    parse_sections_rule_based c1Text
        = [⟨str "Introduction", 'n' :: '\n' :: List.replicate 60 'a'⟩]
    ∧ (parse_sections_rule_based c1Text).map Section.content
        ≠ [List.replicate 60 'a'] := by
  constructor
  · decide
  · decide

/-- Claim C7 counterexample: with a first table whose header cell is
`"Table\t2"`, the marker of table 1 places that cell into the text; the
literal phrase "Table 2" (case-insensitively) occurs nowhere in the current
text, yet the step for table 2 still inserts its block (the regex
`Table\s+2` matches across the tab), so the text is not left unchanged. -/
theorem c7_counterexample :
    containsSubB (str "table 2")
        (lower (process_content_rb (str "Table 1 end.") [[[str "Table\t2"]]])) = false
    ∧ process_content_rb (str "Table 1 end.") [[[str "Table\t2"]], [[str "x"]]]
        ≠ process_content_rb (str "Table 1 end.") [[[str "Table\t2"]]] := by
  constructor
  · decide
  · decide

/-- Claim C7 (amended): each table step inserts its block immediately after
the end offset of the leftmost case-insensitive `Table\s+{i}` match — i.e.
"Table", one or more whitespace characters, then the decimal digits of `i` —
when one exists in the current text, and leaves the text unchanged otherwise;
the concrete conjuncts show an insertion directly after "Table 1" and the
silent drop for an unreferenced table. -/
theorem c7_table_anchor :
    (∀ (n : Nat) (d t : Chars), tableStep n d t =
      (match tableRefFirst t n with
       | some i => t.take (tableRefEnd t n i) ++ str "\n\n[Table " ++ natToChars n
           ++ str ": " ++ d ++ str "]\n\n" ++ t.drop (tableRefEnd t n i)
       | none => t))
    ∧ process_content_rb (str "We show Table 1 here.") [[[str "A", str "B"], [str "1", str "2"]]]
        = str "We show Table 1\n\n[Table 1: Table with 2 rows and 2 columns. Columns include: A, B. Sample data: 1, 2.]\n\n here."
    ∧ process_content_rb (str "Nothing here.") [[[str "A"]]] = str "Nothing here." := by
  refine ⟨?_, by decide, by decide⟩
  intro n d t
  simp only [tableStep, tableRefFirst, scan0]

/-- Claim C8: `extract_title` is total and returns the first stripped line
among the first 15 lines surviving all filters; with no survivor, the
fallback fold over the first 5 lines, which is empty or a stripped line of
length `> 15` of maximal length among them; and the sentinel
"Untitled Document" when even that is empty.  The concrete conjuncts
exercise all three outcomes. -/
theorem c8_title_characterization :
    (∀ t : Chars, extract_title t = titleSpec t)
    ∧ (∀ t : Chars, ((pySplit '\n' t).take 5).foldl titleStep [] = []
        ∨ (15 < (((pySplit '\n' t).take 5).foldl titleStep []).length
            ∧ ((pySplit '\n' t).take 5).foldl titleStep []
                ∈ ((pySplit '\n' t).take 5).map stripWs))
    ∧ (∀ (t l : Chars), l ∈ (pySplit '\n' t).take 5 →
        (stripWs l).length ≤ (((pySplit '\n' t).take 5).foldl titleStep []).length
          ∨ (stripWs l).length ≤ 15)
    ∧ extract_title (str "  A Study of Something Interesting  \nmore text")
        = str "A Study of Something Interesting"
    ∧ extract_title (str "hi\nyo") = str "Untitled Document"
    ∧ extract_title (str "a@b.co line\nuniversity of somewhere padding\nshort\n")
        = str "university of somewhere padding" := by
  refine ⟨?_, ?_, ?_, by decide, by decide, by decide⟩
  · intro t
    simp only [extract_title, titleSpec]
    rw [← filter_head_eq_findq]
    cases h : (((pySplit '\n' t).take 15).map stripWs).filter surviveB with
    | nil => simp
    | cons s rest => simp
  · intro t
    exact titleFold_cases _ []
  · intro t l h
    exact titleFold_max _ [] l h

/-- Claim C8 witness: the fallback-maximality conjunct applied at a concrete
text and line. -/
theorem c8_witness :
    (stripWs (str "university of somewhere padding")).length
        ≤ ((((pySplit '\n'
              (str "a@b.co line\nuniversity of somewhere padding\nshort\n")).take 5)).foldl
            titleStep []).length
      ∨ (stripWs (str "university of somewhere padding")).length ≤ 15 :=
  c8_title_characterization.2.2.1
    (str "a@b.co line\nuniversity of somewhere padding\nshort\n")
    (str "university of somewhere padding") (by decide)

/-- Claim C9 counterexample: the input `"http://x http:pa@b.co//x"` contains
the substring `http://x`, and so does the output of `remove_urls` on it: the
e-mail pass deletes `pa@b.co` and splices `http:` and `//x` into a new
occurrence. -/
theorem c9_counterexample :
    containsSubB (str "http://x") c9Bad = true
    ∧ containsSubB (str "http://x") (remove_urls c9Bad) = true := by
  constructor
  · decide
  · decide

/-- Claim C9 (amended): for every input the output of `remove_urls` has no
run of two or more consecutive whitespace characters and no leading or
trailing whitespace, and empty input yields empty output; the listed
URL/DOI/e-mail substrings are removed on representative inputs (one per
pattern), though not on every input. -/
theorem c9_normalizer :
    (∀ t : Chars, noWsRunB (remove_urls t) = true
      ∧ headNotWsB (remove_urls t) = true
      ∧ lastNotWsB (remove_urls t) = true)
    ∧ remove_urls [] = []
    ∧ (containsSubB (str "http://x") (str "see http://x now") = true
        ∧ containsSubB (str "http://x") (remove_urls (str "see http://x now")) = false)
    ∧ (containsSubB (str "https://x") (str "see https://x now") = true
        ∧ containsSubB (str "https://x") (remove_urls (str "see https://x now")) = false)
    ∧ (containsSubB (str "www.x") (str "see www.x now") = true
        ∧ containsSubB (str "www.x") (remove_urls (str "see www.x now")) = false)
    ∧ (containsSubB (str "doi: x") (str "go doi: x now") = true
        ∧ containsSubB (str "doi: x") (remove_urls (str "go doi: x now")) = false)
    ∧ (containsSubB (str "a@b.co") (str "mail a@b.co now") = true
        ∧ containsSubB (str "a@b.co") (remove_urls (str "mail a@b.co now")) = false) := by
  refine ⟨remove_urls_clean, by decide, ?_, ?_, ?_, ?_, ?_⟩
  · exact ⟨by decide, by decide⟩
  · exact ⟨by decide, by decide⟩
  · exact ⟨by decide, by decide⟩
  · exact ⟨by decide, by decide⟩
  · exact ⟨by decide, by decide⟩

/-- Claim C10 counterexample: the input contains no match of the equation
pattern, yet `process_content` is not the identity modulo `remove_urls` on
it: URL removal splices a `\begin` environment into existence, which the
equation step then replaces. -/
theorem c10_counterexample :
    eqMatches c10Bad = [] ∧ process_content_rb c10Bad [] ≠ remove_urls c10Bad := by
  constructor
  · decide
  · decide

/-- Claim C10 (amended): whenever the URL-normalised text contains no match
of the equation pattern and the table list is empty, `process_content`
returns exactly `remove_urls` of the input. -/
theorem c10_normalization_only :
    ∀ t : Chars, eqMatches (remove_urls t) = [] →
      process_content_rb t [] = remove_urls t := by
  intro t h
  simp only [process_content_rb, process_content, h, List.foldl_nil, List.enum_nil]

/-- Claim C10 witness: a plain text with no equations. -/
theorem c10_witness :
    process_content_rb (str "hello there") [] = remove_urls (str "hello there") :=
  c10_normalization_only (str "hello there") (by decide)

end PdfText
